import Mathlib

/-!
Verification of `src/train_utils.py` (sampling-based GGN approximation).

The numeric arrays of the source are embedded over `ℚ` (exact arithmetic in
place of floating point).  Dimensions: `N` is the batch size, `C` the model
output (class) dimension, `D` the flattened parameter dimension.
-/

namespace TrainUtils

open Matrix

open scoped BigOperators

/-! ## `compute_ggn` (train_utils.py, lines 127-202)

The automatic-differentiation calls of the source (`jax.jacrev`,
`jax.grad`, `jax.jacfwd`, `jax.vmap`) deliver two mathematical objects that
the rest of `compute_ggn` manipulates:

* `J_model`, the per-item Jacobian of the model output w.r.t. the parameter
  pytree — a list of leaves, each leaf reshaped by `x.reshape(N, C, -1)` to a
  row of flattened entries per item `n` and class `a`;
* `H_loss`, the per-item Hessian of softmax cross-entropy w.r.t. the logits.

We embed the leaves as given data (`Leaf`), and the Hessian in its closed
form: for logits `z` with softmax probabilities `p = softmax z`,
`∇²_z CE(z, y) = diag p - p pᵀ`, which depends on `z` only through `p`; the
embedding therefore takes the probability vector `p` as the argument.
-/

/-- One leaf of the Jacobian pytree `J_model`, after the source's
`x.reshape(N, C, -1)`: for item `n` and class `a`, the row-major flattened
slice of that leaf. -/
abbrev Leaf (N C : ℕ) := Fin N → Fin C → List ℚ

/-- The concatenation `jnp.concatenate([x.reshape(N, C, -1) for x in tree_util.tree_leaves(J_model)], axis=2)`
(line 195-197): for fixed item and class, the flattened leaf rows are
concatenated in `tree_leaves` order, i.e. in the list order of `leaves`. -/
def jacRow {N C : ℕ} (leaves : List (Leaf N C)) (n : Fin N) (a : Fin C) : List ℚ :=
  (leaves.map fun L => L n a).flatten

/-- The concatenated Jacobian `J_model` of line 195-197 as a `[C, D]` matrix
for item `n` (out-of-range reads default to `0`; the length lemmas below show
they never occur when `D` is the sum of the leaf sizes). -/
def jacMatrix {N C : ℕ} (D : ℕ) (leaves : List (Leaf N C)) (n : Fin N) :
    Matrix (Fin C) (Fin D) ℚ :=
  Matrix.of fun a x => (jacRow leaves n a).getD x 0

/-- Per-item Hessian `H_loss` of the softmax cross-entropy loss w.r.t. the
logits, produced at line 186/192 by `jax.vmap(jax.jacfwd(jax.grad(loss_fn)))`:
at logits `z` with `p = softmax z` it equals `diag p - p pᵀ`, which depends on
`z` only through the probability vector `p` taken here as the argument. -/
def softmaxHessian {C : ℕ} (p : Fin C → ℚ) : Matrix (Fin C) (Fin C) ℚ :=
  Matrix.of fun a b => (if a = b then p a else 0) - p a * p b

/-- The contraction `jnp.einsum("nax,nab,nby->nxy", J_model, H_loss, J_model)`
of line 200, literally as the double sum over the two class indices. -/
def ggnEinsum {N C : ℕ} (D : ℕ) (J : Fin N → Matrix (Fin C) (Fin D) ℚ)
    (H : Fin N → Matrix (Fin C) (Fin C) ℚ) (n : Fin N) :
    Matrix (Fin D) (Fin D) ℚ :=
  Matrix.of fun x y => ∑ a, ∑ b, J n a x * H n a b * J n b y

/-- The function `compute_ggn` (lines 127-202): concatenate the Jacobian leaves, form the
per-item softmax cross-entropy Hessians, and contract.  `p n` is the softmax
probability vector of item `n`'s logits. -/
def compute_ggn {N C : ℕ} (D : ℕ) (leaves : List (Leaf N C))
    (p : Fin N → Fin C → ℚ) : Fin N → Matrix (Fin D) (Fin D) ℚ :=
  fun n => ggnEinsum D (jacMatrix D leaves) (fun m => softmaxHessian (p m)) n

/-! ### Concrete data for the witnesses -/

/-- First Jacobian leaf of the C1/C7 witness (one flattened entry). -/
def wLeafA : Leaf 1 2 := fun _ a => [(a : ℚ) + 1]

/-- Second Jacobian leaf of the C1/C7 witness (two flattened entries). -/
def wLeafB : Leaf 1 2 := fun _ a => [(a : ℚ), 2]

/-- Softmax probabilities of the C1/C7 witness. -/
def wProb : Fin 1 → Fin 2 → ℚ := fun _ _ => 1 / 2

/-! ## GGN aggregation pass (train_epoch, lines 252-290)

One GGN iteration folds the loop body of
`for ggn_step_idx, ggn_batch in enumerate(ggn_dataloader)` over the GGN
dataloader.  The per-item GGN tensor of each batch (`compute_ggn`'s output)
enters the loop as a list of `[D, D]` matrices.  The `GGN_samples` update
adds arrays whose leading (batch) axis may differ, so it is embedded through
NumPy's broadcasting rule; an incompatible pair of batch sizes is a shape
error (`none`). -/

/-- A square `[D, D]` curvature matrix. -/
abbrev Mat (D : ℕ) := Matrix (Fin D) (Fin D) ℚ

/-- Elementwise division of a matrix by a scalar (`A / c` in jnp). -/
def mdiv {D : ℕ} (A : Mat D) (c : ℚ) : Mat D := Matrix.of fun x y => A x y / c

/-- The reduction `jnp.sum(·, axis=0)` over the list of per-item matrices. -/
def msum {D : ℕ} (l : List (Mat D)) : Mat D := l.sum

/-- NumPy broadcasting of an elementwise binary operation along the leading
batch axis: equal lengths combine positionally, a length-1 operand is
broadcast against the other, and any other combination is a shape error. -/
def broadcastZip {D : ℕ} (f : Mat D → Mat D → Mat D)
    (xs ys : List (Mat D)) : Option (List (Mat D)) :=
  if xs.length = ys.length then some (List.zipWith f xs ys)
  else if xs.length = 1 then some (ys.map fun y => f xs.headI y)
  else if ys.length = 1 then some (xs.map fun x => f x ys.headI)
  else none

/-- One `save_results` call (the result-store collaborator): `GGN_samples`
with the `batch_size` keyword (lines 275-277), or the final `GGN_total`
(line 289, no batch-size tag; `value` is `GGN_total`, still `None` when the
GGN dataloader yielded no batch). -/
inductive SaveEvent (D : ℕ) where
  | samples (step m : ℕ) (value : List (Mat D))
  | total (step : ℕ) (value : Option (Mat D))

/-- The `(n_steps, batch_size)` keys of the `GGN_samples` saves in a trace. -/
def sampleTags {D : ℕ} (evs : List (SaveEvent D)) : List (ℕ × ℕ) :=
  evs.filterMap fun e => match e with
    | .samples st m _ => some (st, m)
    | .total _ _ => none

/-- The `n_steps` keys of the `GGN_total` saves in a trace. -/
def totalTags {D : ℕ} (evs : List (SaveEvent D)) : List ℕ :=
  evs.filterMap fun e => match e with
    | .samples _ _ _ => none
    | .total st _ => some st

/-- Loop state of one GGN pass (lines 253-256 initialize it). -/
structure PassState (D : ℕ) where
  counter : ℕ                      -- GGN_counter
  batchesDone : ℕ                  -- batches consumed (ggn_step_idx + 1 so far)
  total : Option (Mat D)           -- GGN_total
  samples : Option (List (Mat D))  -- GGN_samples
  events : List (SaveEvent D)      -- save_results calls so far

/-- Initial running statistics of a GGN iteration (lines 254-256). -/
def initPass (D : ℕ) : PassState D :=
  { counter := 0, batchesDone := 0, total := none, samples := none, events := [] }

/-- Lines 267-272: `GGN_samples = GGN.copy()` on the first batch, otherwise
`GGN_samples + (GGN - GGN_samples) / aggregated_batch_size` with NumPy
broadcasting on both elementwise operations. -/
def samplesUpdate {D : ℕ} (cur : Option (List (Mat D))) (batch : List (Mat D))
    (m : ℕ) : Option (List (Mat D)) :=
  match cur with
  | none => some batch
  | some sm =>
      (broadcastZip (fun g t => g - t) batch sm).bind fun diff =>
        broadcastZip (fun t d => t + mdiv d (m : ℚ)) sm diff

/-- Lines 280-286: `GGN_total = jnp.mean(GGN, axis=0)` on the first batch,
otherwise `GGN_total + jnp.sum(GGN - GGN_total[None], axis=0) / GGN_counter`
with `counter'` the already-incremented `GGN_counter`. -/
def totalUpdate {D : ℕ} (cur : Option (Mat D)) (batch : List (Mat D))
    (counter' : ℕ) : Mat D :=
  match cur with
  | none => mdiv (msum batch) (batch.length : ℚ)
  | some t => t + mdiv (msum (batch.map fun g => g - t)) (counter' : ℚ)

/-- Body of the GGN dataloader loop (lines 262-286): update `GGN_samples`
(possibly saving it), then `GGN_counter` and `GGN_total`. -/
def stepPass {D : ℕ} (bs : List ℕ) (nsteps : ℕ) (s : PassState D)
    (batch : List (Mat D)) : Option (PassState D) :=
  let m := s.batchesDone + 1
  (samplesUpdate s.samples batch m).map fun samples' =>
    { counter := s.counter + batch.length
      batchesDone := m
      total := some (totalUpdate s.total batch (s.counter + batch.length))
      samples := some samples'
      events := s.events
        ++ if m ∈ bs then [SaveEvent.samples nsteps m samples'] else [] }

/-- One whole GGN iteration (lines 253-290): fold the loop body over the
GGN dataloader, then `save_results(GGN_total, n_steps, results_path)`. -/
def runPass {D : ℕ} (bs : List ℕ) (nsteps : ℕ)
    (batches : List (List (Mat D))) : Option (PassState D) :=
  (batches.foldlM (stepPass bs nsteps) (initPass D)).map fun s =>
    { s with events := s.events ++ [SaveEvent.total nsteps s.total] }

/-! ### Concrete matrices for the aggregation witnesses -/

/-- A concrete 1×1 curvature matrix. -/
def wMatA : Mat 1 := Matrix.of fun _ _ => 1

/-- Another concrete 1×1 curvature matrix. -/
def wMatB : Mat 1 := Matrix.of fun _ _ => 4

/-! ## Epoch driver (train_epoch, lines 205-309; test_epoch, lines 312-357)

The training loop is folded over the training batches.  Each training batch
enters annotated with its `train_step` results — the per-item loss vector
`[N]` and the number of correct predictions — since the model/optimizer
producing them sits behind the `compute_ggn`/`train_step` embeddings above.
The GGN pass inside the loop is the `runPass` embedding. -/

/-- Python runtime errors the epoch driver can surface. -/
inductive PyError where
  | zeroDivision       -- `n_steps % ggn_freq` with `ggn_freq == 0`
  | broadcastMismatch  -- shape error in the `GGN_samples` update
  deriving DecidableEq

/-- Events of one training epoch, in execution order: one completed GGN pass
(with its `save_results` trace), or one `train_step` application, each tagged
with the value of the global step counter `n_steps` at that moment. -/
inductive EpochEvent (D : ℕ) where
  | ggnPass (step : ℕ) (saves : List (SaveEvent D))
  | trainStep (step : ℕ)

/-- Loop state of `train_epoch` (lines 239-242, updated at 250-303). -/
structure EpochState (D : ℕ) where
  n_steps : ℕ                  -- global step counter
  ggnIter : ℕ                  -- GGN_iter_counter
  lossEpoch : List (List ℚ)    -- loss_epoch
  nCorrectEpoch : ℕ            -- n_correct_epoch
  events : List (EpochEvent D)

/-- One iteration of the training loop (lines 250-303): first the
conditional GGN pass (lines 251-290, with Python's short-circuit `and`, so
`n_steps % ggn_freq` is evaluated only when the iteration limit has not been
reached), then `train_step` and the running-statistics updates. -/
def trainEpochStep {D : ℕ} (ggnBatches : List (List (Mat D))) (bs : List ℕ)
    (freq iters : ℕ) (s : EpochState D) (batch : List ℚ × ℕ) :
    Except PyError (EpochState D) := do
  let s ←
    if s.ggnIter < iters then
      if freq = 0 then throw PyError.zeroDivision
      else if s.n_steps % freq = 0 then
        match runPass bs s.n_steps ggnBatches with
        | none => throw PyError.broadcastMismatch
        | some ps => pure { s with
            ggnIter := s.ggnIter + 1
            events := s.events ++ [EpochEvent.ggnPass s.n_steps ps.events] }
      else pure s
    else pure s
  pure { s with
    n_steps := s.n_steps + 1
    lossEpoch := s.lossEpoch ++ [batch.1]
    nCorrectEpoch := s.nCorrectEpoch + batch.2
    events := s.events ++ [EpochEvent.trainStep s.n_steps] }

/-- The reduction `jnp.mean(jnp.concatenate(loss_epoch))` (lines 306 and 355): the mean of
the concatenation of all per-item loss vectors. -/
def epochLoss (losses : List (List ℚ)) : ℚ :=
  losses.flatten.sum / (losses.flatten.length : ℚ)

/-- The function `train_epoch` (lines 205-309): fold the loop over the training batches
starting from the given global step counter, then reduce the epoch
statistics.  Returns (final loop state, epoch loss, epoch accuracy, new
global step counter, remaining GGN iterations). -/
def train_epoch {D : ℕ} (ggnBatches : List (List (Mat D))) (bs : List ℕ)
    (freq iters steps0 datasetSize : ℕ) (trainBatches : List (List ℚ × ℕ)) :
    Except PyError (EpochState D × ℚ × ℚ × ℕ × ℕ) := do
  let s ← trainBatches.foldlM (trainEpochStep ggnBatches bs freq iters)
    { n_steps := steps0, ggnIter := 0, lossEpoch := [], nCorrectEpoch := 0, events := [] }
  pure (s, epochLoss s.lossEpoch, (s.nCorrectEpoch : ℚ) / (datasetSize : ℚ),
    s.n_steps, iters - s.ggnIter)

/-- The function `test_epoch` (lines 312-357): the same loss/correctness accumulation
driven by `test_step`, no GGN pass, no state update; each test batch is
annotated with its `test_step` results. -/
def test_epoch (datasetSize : ℕ) (testBatches : List (List ℚ × ℕ)) : ℚ × ℚ :=
  let acc := testBatches.foldl
    (fun (acc : List (List ℚ) × ℕ) batch => (acc.1 ++ [batch.1], acc.2 + batch.2))
    ([], 0)
  (epochLoss acc.1, (acc.2 : ℚ) / (datasetSize : ℚ))

/-- The steps of a trace at which a GGN pass ran. -/
def passSteps {D : ℕ} (evs : List (EpochEvent D)) : List ℕ :=
  evs.filterMap fun e => match e with
    | .ggnPass t _ => some t
    | .trainStep _ => none

/-- The `save_results` trace of the GGN pass triggered at step `t`. -/
def passEvs {D : ℕ} (bs : List ℕ) (ggnBatches : List (List (Mat D))) (t : ℕ) :
    List (SaveEvent D) :=
  ((runPass bs t ggnBatches).map (·.events)).getD []

/-- Specification-side canonical epoch trace: for `n` training batches
starting at global step `t0` with `quota` GGN passes left, a batch first
runs a full GGN pass when the quota is positive and its step is a multiple
of `freq`, then its train step. -/
def epochSegs {D : ℕ} (bs : List ℕ) (ggnBatches : List (List (Mat D)))
    (freq : ℕ) : ℕ → ℕ → ℕ → List (EpochEvent D)
  | _, _, 0 => []
  | t0, quota, n + 1 =>
      if 0 < quota ∧ t0 % freq = 0 then
        EpochEvent.ggnPass t0 (passEvs bs ggnBatches t0)
          :: EpochEvent.trainStep t0
          :: epochSegs bs ggnBatches freq (t0 + 1) (quota - 1) n
      else
        EpochEvent.trainStep t0 :: epochSegs bs ggnBatches freq (t0 + 1) quota n

/-! ## Correct-prediction count of train_step / test_step (lines 66 and 122)

`n_correct = jnp.sum(jnp.argmax(logits, -1) == y)`: `jnp.argmax` returns the
first index attaining the maximum along the class axis, the comparison with
the integer labels is exact, and the sum of the boolean array is an exact
non-negative integer. -/

/-- The scan `jnp.argmax` over the class axis: the first index attaining the maximum
(scan left to right, replace only on a strictly greater value). -/
def argmaxF {c : ℕ} (z : Fin (c + 1) → ℚ) : Fin (c + 1) :=
  (List.finRange (c + 1)).foldl (fun best i => if z best < z i then i else best) 0

/-- The count `jnp.sum(jnp.argmax(logits, -1) == y)` (lines 66 and 122), as a natural
number; `y` is the integer label vector. -/
def n_correct {N c : ℕ} (logits : Fin N → Fin (c + 1) → ℚ) (y : Fin N → ℕ) : ℕ :=
  ∑ i, if (argmaxF (logits i)).val = y i then 1 else 0

/-! ## Theorems -/

/-- The einsum of line 200 is exactly the sandwich product `Jᵀ * H * J`. -/
theorem ggnEinsum_eq_sandwich {N C : ℕ} (D : ℕ)
    (J : Fin N → Matrix (Fin C) (Fin D) ℚ)
    (H : Fin N → Matrix (Fin C) (Fin C) ℚ) (n : Fin N) :
    ggnEinsum D J H n = (J n)ᵀ * H n * J n := by
  ext x y
  simp only [ggnEinsum, Matrix.of_apply, Matrix.mul_apply, Matrix.transpose_apply,
    Finset.sum_mul, Finset.mul_sum]
  rw [Finset.sum_comm]

/-- The concatenated row has length equal to the sum of the leaf sizes. -/
theorem jacRow_length {N C : ℕ} {leaves : List (Leaf N C)} {sizes : List ℕ}
    (h : List.Forall₂ (fun (L : Leaf N C) d => ∀ n a, (L n a).length = d) leaves sizes)
    (n : Fin N) (a : Fin C) : (jacRow leaves n a).length = sizes.sum := by
  induction h with
  | nil => simp [jacRow]
  | cons hLd _ ih =>
      simp only [jacRow, List.map_cons, List.flatten_cons, List.length_append, List.sum_cons]
      exact congrArg₂ (· + ·) (hLd n a) ih

/-- Entry `(sizes.take i).sum + j` of the concatenated row is entry `j` of
leaf `i`: the flattening order is the fixed traversal order of `leaves`. -/
theorem jacRow_getD {N C : ℕ} {leaves : List (Leaf N C)} {sizes : List ℕ}
    (h : List.Forall₂ (fun (L : Leaf N C) d => ∀ n a, (L n a).length = d) leaves sizes)
    (i j : ℕ) (hj : j < sizes.getD i 0) (n : Fin N) (a : Fin C) :
    (jacRow leaves n a).getD ((sizes.take i).sum + j) 0
      = ((leaves.getD i (fun _ _ => [])) n a).getD j 0 := by
  induction h generalizing i with
  | nil => simp at hj
  | @cons L d ls ds hLd htl ih =>
      cases i with
      | zero =>
          have hjlen : j < (L n a).length := by
            rw [hLd n a]; simpa using hj
          have hrow : jacRow (L :: ls) n a = L n a ++ jacRow ls n a := by
            simp [jacRow]
          simp only [List.take_zero, List.sum_nil, Nat.zero_add, List.getD_cons_zero, hrow]
          rw [List.getD_eq_getElem?_getD, List.getD_eq_getElem?_getD,
            List.getElem?_append_left hjlen]
      | succ i' =>
          have hj' : j < ds.getD i' 0 := by
            simpa [List.getD_cons_succ] using hj
          have hrow : jacRow (L :: ls) n a = L n a ++ jacRow ls n a := by
            simp [jacRow]
          have hlen : (L n a).length = d := hLd n a
          have htake : ((d :: ds).take (i' + 1)).sum = d + (ds.take i').sum := by
            simp
          have hge : (L n a).length ≤ ((d :: ds).take (i' + 1)).sum + j := by
            rw [hlen, htake]; omega
          rw [hrow, List.getD_cons_succ]
          rw [List.getD_eq_getElem?_getD, List.getElem?_append_right hge,
            ← List.getD_eq_getElem?_getD]
          have harith : ((d :: ds).take (i' + 1)).sum + j - (L n a).length
              = (ds.take i').sum + j := by
            rw [hlen, htake]; omega
          rw [harith]
          exact ih i' hj'

/-! ### Symmetry and positive semi-definiteness of the Hessian and the GGN -/

/-- The softmax cross-entropy Hessian `diag p - p pᵀ` is symmetric. -/
theorem softmaxHessian_symm {C : ℕ} (p : Fin C → ℚ) :
    (softmaxHessian p)ᵀ = softmaxHessian p := by
  ext a b
  simp only [softmaxHessian, Matrix.transpose_apply, Matrix.of_apply]
  by_cases h : a = b
  · subst h; ring
  · rw [if_neg h, if_neg (Ne.symm h)]; ring

/-- Quadratic form of the softmax cross-entropy Hessian: the weighted
variance identity `wᵀ (diag p - p pᵀ) w = ∑ p j (w j - μ)²` with
`μ = ∑ p j w j`, hence non-negative for a probability vector `p`. -/
theorem softmaxHessian_quad_nonneg {C : ℕ} (p : Fin C → ℚ)
    (hp0 : ∀ j, 0 ≤ p j) (hp1 : ∑ j, p j = 1) (w : Fin C → ℚ) :
    0 ≤ w ⬝ᵥ (softmaxHessian p) *ᵥ w := by
  have hinner : ∀ a, (∑ b, ((if a = b then p a else 0) - p a * p b) * w b)
      = p a * w a - p a * ∑ b, p b * w b := by
    intro a
    calc ∑ b, ((if a = b then p a else 0) - p a * p b) * w b
        = ∑ b, ((if a = b then p a else 0) * w b - p a * p b * w b) :=
          Finset.sum_congr rfl fun b _ => sub_mul _ _ _
      _ = (∑ b, (if a = b then p a else 0) * w b) - ∑ b, p a * p b * w b :=
          Finset.sum_sub_distrib
      _ = p a * w a - p a * ∑ b, p b * w b := by
          congr 1
          · simp
          · rw [Finset.mul_sum]
            exact Finset.sum_congr rfl fun b _ => by ring
  have hquad : w ⬝ᵥ (softmaxHessian p) *ᵥ w
      = (∑ j, p j * w j ^ 2) - (∑ j, p j * w j) ^ 2 := by
    simp only [Matrix.dotProduct, Matrix.mulVec, softmaxHessian, Matrix.of_apply]
    calc ∑ a, w a * ∑ b, ((if a = b then p a else 0) - p a * p b) * w b
        = ∑ a, (p a * w a ^ 2 - (p a * w a) * ∑ b, p b * w b) :=
          Finset.sum_congr rfl fun a _ => by rw [hinner a]; ring
      _ = (∑ j, p j * w j ^ 2) - (∑ j, p j * w j) ^ 2 := by
          rw [Finset.sum_sub_distrib, ← Finset.sum_mul]; ring
  have hvar : w ⬝ᵥ (softmaxHessian p) *ᵥ w
      = ∑ j, p j * (w j - ∑ k, p k * w k) ^ 2 := by
    rw [hquad]
    calc (∑ j, p j * w j ^ 2) - (∑ j, p j * w j) ^ 2
        = (∑ j, p j * w j ^ 2) - 2 * (∑ k, p k * w k) * (∑ j, p j * w j)
            + (∑ k, p k * w k) ^ 2 * (∑ j, p j) := by rw [hp1]; ring
      _ = ∑ j, (p j * w j ^ 2 - 2 * (∑ k, p k * w k) * (p j * w j)
            + (∑ k, p k * w k) ^ 2 * p j) := by
          rw [Finset.sum_add_distrib, Finset.sum_sub_distrib, ← Finset.mul_sum,
            ← Finset.mul_sum]
      _ = ∑ j, p j * (w j - ∑ k, p k * w k) ^ 2 :=
          Finset.sum_congr rfl fun j _ => by ring
  rw [hvar]
  exact Finset.sum_nonneg fun j _ => mul_nonneg (hp0 j) (sq_nonneg _)

/-- Quadratic form of a sandwich product `Jᵀ * H * J` equals the quadratic
form of `H` at `J *ᵥ v`. -/
theorem quad_sandwich {C D : ℕ} (J : Matrix (Fin C) (Fin D) ℚ)
    (H : Matrix (Fin C) (Fin C) ℚ) (v : Fin D → ℚ) :
    v ⬝ᵥ (Jᵀ * H * J) *ᵥ v = (J *ᵥ v) ⬝ᵥ H *ᵥ (J *ᵥ v) := by
  rw [dotProduct_mulVec, ← vecMul_vecMul, ← vecMul_vecMul, vecMul_transpose,
    ← dotProduct_mulVec, dotProduct_mulVec (J *ᵥ v) H (J *ᵥ v)]

/-- A sandwich product around a symmetric middle matrix is symmetric. -/
theorem sandwich_symm {C D : ℕ} (J : Matrix (Fin C) (Fin D) ℚ)
    (H : Matrix (Fin C) (Fin C) ℚ) (hH : Hᵀ = H) :
    (Jᵀ * H * J)ᵀ = Jᵀ * H * J := by
  rw [Matrix.transpose_mul, Matrix.transpose_mul, Matrix.transpose_transpose, hH,
    Matrix.mul_assoc]

/-- Claim C1: for every batch and parameter tree, `compute_ggn` returns an
`[N, D, D]` tensor (here: a `Matrix (Fin D) (Fin D) ℚ` per item, with the
hypotheses forcing `D` to be the sum of the flattened leaf sizes), the
flattening concatenates the leaves in the fixed `tree_leaves` traversal
order (entry `(sizes.take i).sum + j` of the concatenated row is entry `j`
of leaf `i`), and for every item `n` the result is the sandwich product
`J[n]ᵀ * H[n] * J[n]` with `H[n]` the softmax cross-entropy Hessian of item
`n`'s logits. -/
theorem compute_ggn_shape_sandwich {N C : ℕ} (D : ℕ) (leaves : List (Leaf N C))
    (sizes : List ℕ) (p : Fin N → Fin C → ℚ)
    (hlen : List.Forall₂ (fun (L : Leaf N C) d => ∀ n a, (L n a).length = d) leaves sizes)
    (hD : D = sizes.sum) :
    (∀ n a, (jacRow leaves n a).length = D)
    ∧ (∀ i j, j < sizes.getD i 0 → ∀ n a,
        (jacRow leaves n a).getD ((sizes.take i).sum + j) 0
          = ((leaves.getD i (fun _ _ => [])) n a).getD j 0)
    ∧ ∀ n, compute_ggn D leaves p n
        = (jacMatrix D leaves n)ᵀ * softmaxHessian (p n) * jacMatrix D leaves n :=
  ⟨fun n a => hD ▸ jacRow_length hlen n a,
    fun i j hj n a => jacRow_getD hlen i j hj n a,
    fun n => ggnEinsum_eq_sandwich D _ _ n⟩

/-- Witness for C1 at a concrete two-leaf tree with sizes `[1, 2]`. -/
theorem compute_ggn_shape_sandwich_witness :
    (jacRow [wLeafA, wLeafB] 0 0).length = 3
    ∧ (jacRow [wLeafA, wLeafB] 0 1).getD (([1, 2].take 1).sum + 0) 0
        = (([wLeafA, wLeafB].getD 1 (fun _ _ => [])) 0 1).getD 0 0
    ∧ compute_ggn 3 [wLeafA, wLeafB] wProb 0
        = (jacMatrix 3 [wLeafA, wLeafB] 0)ᵀ * softmaxHessian (wProb 0)
            * jacMatrix 3 [wLeafA, wLeafB] 0 := by
  have h := compute_ggn_shape_sandwich 3 [wLeafA, wLeafB] [1, 2] wProb
    (.cons (fun _ _ => rfl) (.cons (fun _ _ => rfl) .nil)) rfl
  exact ⟨h.1 0 0, h.2.1 1 0 (by decide) 0 1, h.2.2 0⟩

/-- Claim C7: for every batch and every item `n`, the per-item matrix
returned by `compute_ggn` is symmetric and positive semi-definite, provided
`p n` is a probability vector (which `softmax` always produces). -/
theorem compute_ggn_symm_psd {N C : ℕ} (D : ℕ) (leaves : List (Leaf N C))
    (p : Fin N → Fin C → ℚ) (n : Fin N)
    (hp0 : ∀ j, 0 ≤ p n j) (hp1 : ∑ j, p n j = 1) :
    (compute_ggn D leaves p n)ᵀ = compute_ggn D leaves p n
    ∧ ∀ v : Fin D → ℚ, 0 ≤ v ⬝ᵥ (compute_ggn D leaves p n) *ᵥ v := by
  have hsand : compute_ggn D leaves p n
      = (jacMatrix D leaves n)ᵀ * softmaxHessian (p n) * jacMatrix D leaves n :=
    ggnEinsum_eq_sandwich D _ _ n
  constructor
  · rw [hsand]
    exact sandwich_symm _ _ (softmaxHessian_symm (p n))
  · intro v
    rw [hsand, quad_sandwich]
    exact softmaxHessian_quad_nonneg (p n) hp0 hp1 _

/-- Witness for C7 at the concrete two-leaf tree, with the quadratic form
evaluated at the vector `(1, 1, 1)`. -/
theorem compute_ggn_symm_psd_witness :
    (compute_ggn 3 [wLeafA, wLeafB] wProb 0)ᵀ = compute_ggn 3 [wLeafA, wLeafB] wProb 0
    ∧ 0 ≤ (fun _ => (1 : ℚ)) ⬝ᵥ (compute_ggn 3 [wLeafA, wLeafB] wProb 0) *ᵥ
        (fun _ => (1 : ℚ)) := by
  have h := compute_ggn_symm_psd 3 [wLeafA, wLeafB] wProb 0
    (fun _ => by norm_num [wProb]) (by norm_num [wProb, Fin.sum_univ_two])
  exact ⟨h.1, h.2 _⟩

/-! ### Entrywise lemmas for the matrix aggregation arithmetic -/

theorem msum_apply {D : ℕ} (l : List (Mat D)) (x y : Fin D) :
    msum l x y = (l.map fun A => A x y).sum := by
  induction l with
  | nil => simp [msum]
  | cons A l ih =>
      simp only [msum, List.sum_cons, List.map_cons] at *
      rw [Matrix.add_apply, ih]

theorem msum_append {D : ℕ} (l l' : List (Mat D)) :
    msum (l ++ l') = msum l + msum l' := by
  simp [msum]

theorem mdiv_apply {D : ℕ} (A : Mat D) (c : ℚ) (x y : Fin D) :
    mdiv A c x y = A x y / c := rfl

theorem sum_map_sub_entry {D : ℕ} (l : List (Mat D)) (t : Mat D) (x y : Fin D) :
    ((l.map fun g => g - t).map fun A => A x y).sum
      = (l.map fun A => A x y).sum - l.length * t x y := by
  induction l with
  | nil => simp
  | cons A l ih =>
      simp only [List.map_cons, List.sum_cons, List.length_cons, ih, Matrix.sub_apply]
      push_cast
      ring

/-- The running-mean update of `GGN_total` (lines 284-286) turns the mean of
the items seen so far into the mean of all items including the new batch. -/
theorem totalUpdate_mean {D : ℕ} (J b : List (Mat D)) (hJ : 0 < J.length) :
    totalUpdate (some (mdiv (msum J) (J.length : ℚ))) b (J.length + b.length)
      = mdiv (msum (J ++ b)) ((J.length + b.length : ℕ) : ℚ) := by
  ext x y
  have hJ0 : (J.length : ℚ) ≠ 0 := by positivity
  have hJb0 : ((J.length : ℚ) + b.length) ≠ 0 := by positivity
  simp only [totalUpdate, Matrix.add_apply, mdiv_apply, msum_apply, sum_map_sub_entry,
    msum_append, Matrix.add_apply]
  push_cast
  field_simp
  ring

theorem flatten_length_pos {α : Type} (l : List (List α)) (hl : l ≠ [])
    (hne : ∀ b ∈ l, b ≠ []) : 0 < l.flatten.length := by
  cases l with
  | nil => exact absurd rfl hl
  | cons b rest =>
      have hb : b ≠ [] := hne b (List.mem_cons_self _ _)
      simp only [List.flatten_cons, List.length_append]
      have : 0 < b.length := List.length_pos.mpr hb
      omega

/-- Unpacking one successful `stepPass`. -/
theorem stepPass_eq_some {D : ℕ} {bs : List ℕ} {ns : ℕ} {s s₁ : PassState D}
    {batch : List (Mat D)} (h : stepPass bs ns s batch = some s₁) :
    ∃ samples', samplesUpdate s.samples batch (s.batchesDone + 1) = some samples'
      ∧ s₁ = { counter := s.counter + batch.length
               batchesDone := s.batchesDone + 1
               total := some (totalUpdate s.total batch (s.counter + batch.length))
               samples := some samples'
               events := s.events ++ if s.batchesDone + 1 ∈ bs then
                  [SaveEvent.samples ns (s.batchesDone + 1) samples'] else [] } := by
  rcases Option.map_eq_some'.mp h with ⟨samples', hsm, hrec⟩
  exact ⟨samples', hsm, hrec.symm⟩

theorem getD_eq_getElem {α : Type} (l : List α) (d : α) {i : ℕ} (h : i < l.length) :
    l.getD i d = l[i] := by
  rw [List.getD_eq_getElem?_getD, List.getElem?_eq_getElem h]
  rfl

theorem getElem_zipWith_of_lt {α β γ : Type} (f : α → β → γ) (as : List α) (bs : List β)
    (i : ℕ) (ha : i < as.length) (hb : i < bs.length)
    (hz : i < (List.zipWith f as bs).length) :
    (List.zipWith f as bs)[i] = f as[i] bs[i] := by
  have h := @List.getElem?_zipWith α β γ as bs f i
  rw [List.getElem?_eq_getElem ha, List.getElem?_eq_getElem hb,
    List.getElem?_eq_getElem hz] at h
  exact Option.some.inj h

theorem msum_singleton {D : ℕ} (A : Mat D) : msum [A] = A := by
  simp [msum]

theorem mdiv_one {D : ℕ} (A : Mat D) : mdiv A 1 = A := by
  ext x y
  simp [mdiv]

/-- With matching batch sizes, the `GGN_samples` update (lines 270-272)
succeeds and is the positionwise running-mean step. -/
theorem samplesUpdate_fixed_get {D : ℕ} (sm batch : List (Mat D)) (m : ℕ)
    (hlen : sm.length = batch.length) :
    ∃ L, samplesUpdate (some sm) batch m = some L ∧ L.length = sm.length ∧
      ∀ i, i < sm.length →
        L.getD i 0 = sm.getD i 0 + mdiv (batch.getD i 0 - sm.getD i 0) (m : ℚ) := by
  have h1 : broadcastZip (fun g t => g - t) batch sm
      = some (List.zipWith (fun g t => g - t) batch sm) := by
    unfold broadcastZip
    rw [if_pos hlen.symm]
  have hdl : (List.zipWith (fun (g t : Mat D) => g - t) batch sm).length = sm.length := by
    simp [List.length_zipWith, ← hlen]
  have h2 : broadcastZip (fun t d => t + mdiv d (m : ℚ)) sm
        (List.zipWith (fun g t => g - t) batch sm)
      = some (List.zipWith (fun t d => t + mdiv d (m : ℚ)) sm
          (List.zipWith (fun g t => g - t) batch sm)) := by
    unfold broadcastZip
    rw [if_pos (by rw [hdl])]
  refine ⟨List.zipWith (fun t d => t + mdiv d (m : ℚ)) sm
      (List.zipWith (fun g t => g - t) batch sm), ?_, ?_, ?_⟩
  · simp [samplesUpdate, h1, h2]
  · rw [List.length_zipWith, hdl]
    exact min_self _
  · intro i hi
    have hib : i < batch.length := by rw [← hlen]; exact hi
    have hid : i < (List.zipWith (fun (g t : Mat D) => g - t) batch sm).length := by
      rw [hdl]; exact hi
    have hiL : i < (List.zipWith (fun t d => t + mdiv d (m : ℚ)) sm
        (List.zipWith (fun (g t : Mat D) => g - t) batch sm)).length := by
      rw [List.length_zipWith, hdl]
      exact lt_of_lt_of_le hi (le_of_eq (min_self _).symm)
    rw [getD_eq_getElem _ _ hiL, getD_eq_getElem _ _ hi, getD_eq_getElem _ _ hib,
      getElem_zipWith_of_lt _ _ _ i hi hid hiL,
      getElem_zipWith_of_lt _ _ _ i hib hi hid]

/-- With a fixed batch size across the GGN dataloader, the pass loop never
hits a broadcast error. -/
theorem foldPass_ok {D : ℕ} (bs : List ℕ) (ns : ℕ) (N : ℕ) :
    ∀ (batches : List (List (Mat D))) (s : PassState D),
      (∀ b ∈ batches, b.length = N) →
      (s.samples = none ∨ ∃ L, s.samples = some L ∧ L.length = N) →
      ∃ s', List.foldlM (stepPass bs ns) s batches = some s' ∧
        (s'.samples = none ∨ ∃ L, s'.samples = some L ∧ L.length = N) := by
  intro batches
  induction batches with
  | nil =>
      intro s _ hs
      exact ⟨s, by simp [List.foldlM_nil], hs⟩
  | cons b rest ih =>
      intro s hsz hs
      have hbN : b.length = N := hsz b (List.mem_cons_self _ _)
      have hupd : ∃ L', samplesUpdate s.samples b (s.batchesDone + 1) = some L'
          ∧ L'.length = N := by
        rcases hs with h | ⟨L, hL, hLN⟩
        · exact ⟨b, by simp [samplesUpdate, h], hbN⟩
        · rcases samplesUpdate_fixed_get L b (s.batchesDone + 1)
            (by rw [hLN, hbN]) with ⟨L', h1, h2, _⟩
          exact ⟨L', by rw [hL]; exact h1, by rw [h2, hLN]⟩
      rcases hupd with ⟨L', hL', hL'N⟩
      set s₁ : PassState D :=
        { counter := s.counter + b.length
          batchesDone := s.batchesDone + 1
          total := some (totalUpdate s.total b (s.counter + b.length))
          samples := some L'
          events := s.events ++ if s.batchesDone + 1 ∈ bs then
             [SaveEvent.samples ns (s.batchesDone + 1) L'] else [] } with hs₁
      have hstep : stepPass bs ns s b = some s₁ := by
        simp [stepPass, hL', hs₁]
      rcases ih s₁ (fun b' hb' => hsz b' (List.mem_cons_of_mem _ hb'))
        (Or.inr ⟨L', rfl, hL'N⟩) with ⟨s', hrun, hs'⟩
      exact ⟨s', by rw [List.foldlM_cons, hstep]; simpa using hrun, hs'⟩

/-- Invariant of the pass loop for `GGN_counter` and `GGN_total`: folding the
loop body over further batches keeps the counter equal to the number of items
seen and the total equal to the exact mean of all per-item GGNs seen. -/
theorem foldPass_total {D : ℕ} (bs : List ℕ) (ns : ℕ) :
    ∀ (batches done : List (List (Mat D))) (s s' : PassState D),
      (∀ b ∈ done, b ≠ []) → (∀ b ∈ batches, b ≠ []) →
      s.counter = done.flatten.length →
      (done = [] → s.total = none) →
      (done ≠ [] → s.total = some (mdiv (msum done.flatten) (done.flatten.length : ℚ))) →
      List.foldlM (stepPass bs ns) s batches = some s' →
      s'.counter = (done ++ batches).flatten.length ∧
      (done ++ batches = [] → s'.total = none) ∧
      (done ++ batches ≠ [] →
        s'.total = some (mdiv (msum (done ++ batches).flatten)
          ((done ++ batches).flatten.length : ℚ))) := by
  intro batches
  induction batches with
  | nil =>
      intro done s s' _ _ hc h0 h1 hrun
      obtain rfl : s = s' := by simpa [List.foldlM] using hrun
      rw [List.append_nil]
      exact ⟨hc, h0, h1⟩
  | cons b rest ih =>
      intro done s s' hdone hbr hc h0 h1 hrun
      rw [List.foldlM_cons] at hrun
      rcases Option.bind_eq_some.mp hrun with ⟨s₁, hstep, hrest⟩
      rcases stepPass_eq_some hstep with ⟨samples', _, rfl⟩
      have hb : b ≠ [] := hbr b (List.mem_cons_self _ _)
      have hcount : (done ++ [b]).flatten.length = done.flatten.length + b.length := by
        simp
      have happ : (done ++ [b]) ++ rest = done ++ b :: rest := by
        simp
      have h := ih (done ++ [b]) _ s'
        (by intro b' hb'
            rcases List.mem_append.mp hb' with h' | h'
            · exact hdone b' h'
            · rwa [List.mem_singleton.mp h'])
        (fun b' hb' => hbr b' (List.mem_cons_of_mem _ hb'))
        (by simp [hc])
        (by simp)
        ?_ hrest
      · rwa [happ] at h
      · intro
        cases hdo : decide (done = []) with
        | true =>
            have hdone' : done = [] := of_decide_eq_true hdo
            subst hdone'
            have : s.total = none := h0 rfl
            simp [this, totalUpdate, hc]
        | false =>
            have hdone' : done ≠ [] := of_decide_eq_false hdo
            have hflat : 0 < done.flatten.length := flatten_length_pos done hdone' hdone
            have hst : s.total = some (mdiv (msum done.flatten) (done.flatten.length : ℚ)) :=
              h1 hdone'
            simp only [hst, hc]
            rw [totalUpdate_mean done.flatten b hflat]
            simp

/-- The positionwise running-mean step of `GGN_samples` (lines 270-272) turns
the mean over `k` batches into the mean over `k + 1` batches. -/
theorem samples_mean_step {D : ℕ} (S g : Mat D) (k : ℕ) (hk : 0 < k) :
    mdiv S (k : ℚ) + mdiv (g - mdiv S (k : ℚ)) ((k + 1 : ℕ) : ℚ)
      = mdiv (S + g) ((k + 1 : ℕ) : ℚ) := by
  ext x y
  have hk0 : (k : ℚ) ≠ 0 := by positivity
  have hk1 : ((k : ℚ) + 1) ≠ 0 := by positivity
  simp only [Matrix.add_apply, Matrix.sub_apply, mdiv_apply]
  push_cast
  field_simp
  ring

/-- Invariant of the pass loop for `GGN_samples` under a fixed GGN-batch size
`N`: position `i` of the aggregate is the mean, over the batches seen, of the
per-item GGN at batch-relative index `i`. -/
theorem foldPass_samples {D : ℕ} (bs : List ℕ) (ns : ℕ) (N : ℕ) :
    ∀ (batches done : List (List (Mat D))) (s s' : PassState D),
      (∀ b ∈ done, b.length = N) → (∀ b ∈ batches, b.length = N) →
      s.batchesDone = done.length →
      (done = [] → s.samples = none) →
      (done ≠ [] → ∃ L, s.samples = some L ∧ L.length = N ∧
        ∀ i, i < N → L.getD i 0
          = mdiv (msum (done.map fun b => b.getD i 0)) (done.length : ℚ)) →
      List.foldlM (stepPass bs ns) s batches = some s' →
      (done ++ batches = [] → s'.samples = none) ∧
      (done ++ batches ≠ [] → ∃ L, s'.samples = some L ∧ L.length = N ∧
        ∀ i, i < N → L.getD i 0
          = mdiv (msum ((done ++ batches).map fun b => b.getD i 0))
              ((done ++ batches).length : ℚ)) := by
  intro batches
  induction batches with
  | nil =>
      intro done s s' _ _ _ h0 h1 hrun
      obtain rfl : s = s' := by simpa [List.foldlM] using hrun
      rw [List.append_nil]
      exact ⟨h0, h1⟩
  | cons b rest ih =>
      intro done s s' hdone hbr hc h0 h1 hrun
      rw [List.foldlM_cons] at hrun
      rcases Option.bind_eq_some.mp hrun with ⟨s₁, hstep, hrest⟩
      rcases stepPass_eq_some hstep with ⟨samples', hupd, rfl⟩
      have hbN : b.length = N := hbr b (List.mem_cons_self _ _)
      have happ : (done ++ [b]) ++ rest = done ++ b :: rest := by
        simp
      have h := ih (done ++ [b]) _ s'
        (by intro b' hb'
            rcases List.mem_append.mp hb' with h' | h'
            · exact hdone b' h'
            · rw [List.mem_singleton.mp h']; exact hbN)
        (fun b' hb' => hbr b' (List.mem_cons_of_mem _ hb'))
        (by simp [hc])
        (by simp)
        ?_ hrest
      · rwa [happ] at h
      · intro
        refine ⟨samples', rfl, ?_, ?_⟩
        · cases hdo : decide (done = []) with
          | true =>
              have hdone' : done = [] := of_decide_eq_true hdo
              subst hdone'
              have hnone : s.samples = none := h0 rfl
              rw [hnone] at hupd
              simp only [samplesUpdate] at hupd
              obtain rfl : b = samples' := Option.some.inj hupd
              exact hbN
          | false =>
              have hdone' : done ≠ [] := of_decide_eq_false hdo
              rcases h1 hdone' with ⟨L, hL, hLN, _⟩
              rw [hL] at hupd
              rcases samplesUpdate_fixed_get L b (s.batchesDone + 1)
                (by rw [hLN, hbN]) with ⟨L', hL', hL'len, _⟩
              obtain rfl : L' = samples' := by
                rw [hL'] at hupd; exact Option.some.inj hupd
              rw [hL'len, hLN]
        · intro i hiN
          cases hdo : decide (done = []) with
          | true =>
              have hdone' : done = [] := of_decide_eq_true hdo
              subst hdone'
              have hnone : s.samples = none := h0 rfl
              rw [hnone] at hupd
              simp only [samplesUpdate] at hupd
              obtain rfl : b = samples' := Option.some.inj hupd
              simp [msum_singleton, mdiv_one]
          | false =>
              have hdone' : done ≠ [] := of_decide_eq_false hdo
              have hkpos : 0 < done.length := List.length_pos.mpr hdone'
              rcases h1 hdone' with ⟨L, hL, hLN, hLget⟩
              rw [hL] at hupd
              rcases samplesUpdate_fixed_get L b (s.batchesDone + 1)
                (by rw [hLN, hbN]) with ⟨L', hL', hL'len, hL'get⟩
              obtain rfl : L' = samples' := by
                rw [hL'] at hupd; exact Option.some.inj hupd
              have hiL : i < L.length := by rw [hLN]; exact hiN
              rw [hL'get i hiL, hLget i hiN, hc]
              have hmap : (done ++ [b]).map (fun b' => b'.getD i 0)
                  = done.map (fun b' => b'.getD i 0) ++ [b.getD i 0] := by
                simp
              rw [hmap, msum_append, msum_singleton]
              have hlen : ((done ++ [b]).length : ℚ) = ((done.length + 1 : ℕ) : ℚ) := by
                simp
              rw [hlen]
              exact samples_mean_step _ _ done.length hkpos

/-- Invariant of the pass loop for the `save_results` trace: the saves so far
are exactly the `GGN_samples` saves at the cumulative batch counts in
`ggn_batch_sizes`, keyed by `(n_steps, count)`, and no `GGN_total` save. -/
theorem foldPass_events {D : ℕ} (bs : List ℕ) (ns : ℕ) :
    ∀ (batches : List (List (Mat D))) (k : ℕ) (s s' : PassState D),
      s.batchesDone = k →
      sampleTags s.events
        = (((List.range k).map (· + 1)).filter (· ∈ bs)).map (fun m => (ns, m)) →
      totalTags s.events = [] →
      List.foldlM (stepPass bs ns) s batches = some s' →
      sampleTags s'.events
        = (((List.range (k + batches.length)).map (· + 1)).filter (· ∈ bs)).map
            (fun m => (ns, m)) ∧
      totalTags s'.events = [] := by
  intro batches
  induction batches with
  | nil =>
      intro k s s' hk hsm htot hrun
      obtain rfl : s = s' := by simpa [List.foldlM] using hrun
      simpa using ⟨hsm, htot⟩
  | cons b rest ih =>
      intro k s s' hk hsm htot hrun
      rw [List.foldlM_cons] at hrun
      rcases Option.bind_eq_some.mp hrun with ⟨s₁, hstep, hrest⟩
      rcases stepPass_eq_some hstep with ⟨samples', _, rfl⟩
      have h := ih (k + 1) _ s' (by simp [hk]) ?_ ?_ hrest
      · have hlen : k + (b :: rest).length = k + 1 + rest.length := by
          simp only [List.length_cons]
          omega
        rw [hlen]
        exact h
      · rw [hk]
        rw [sampleTags, List.filterMap_append, ← sampleTags, hsm, List.range_succ]
        by_cases hm : k + 1 ∈ bs
        · simp [sampleTags, hm]
        · simp [sampleTags, hm]
      · rw [hk]
        rw [totalTags, List.filterMap_append, ← totalTags, htot]
        by_cases hm : k + 1 ∈ bs
        · simp [totalTags, hm]
        · simp [totalTags, hm]

/-- Claim C2: after any number of GGN batches, `GGN_total` is the exact
arithmetic mean of all per-item GGNs processed so far, regardless of the
batch boundaries, and the first batch initializes it to that batch's own
per-item mean. -/
theorem ggn_total_running_mean {D : ℕ} (bs : List ℕ) (ns : ℕ)
    (batches : List (List (Mat D)))
    (hne : ∀ b ∈ batches, b ≠ []) (hk : batches ≠ [])
    (hok : (List.foldlM (stepPass bs ns) (initPass D) batches).isSome = true) :
    (∀ b s₁, stepPass bs ns (initPass D) b = some s₁ →
        s₁.total = some (mdiv (msum b) (b.length : ℚ)))
    ∧ ((List.foldlM (stepPass bs ns) (initPass D) batches).getD (initPass D)).counter
        = batches.flatten.length
    ∧ ((List.foldlM (stepPass bs ns) (initPass D) batches).getD (initPass D)).total
        = some (mdiv (msum batches.flatten) (batches.flatten.length : ℚ)) := by
  rcases Option.isSome_iff_exists.mp hok with ⟨s', hs'⟩
  have h := foldPass_total bs ns batches [] (initPass D) s'
    (by intro b hb; cases hb) hne rfl (fun _ => rfl)
    (by intro h; exact absurd rfl h) hs'
  simp only [List.nil_append] at h
  refine ⟨?_, ?_, ?_⟩
  · intro b s₁ hstep
    rcases stepPass_eq_some hstep with ⟨samples', _, rfl⟩
    rfl
  · rw [hs', Option.getD_some]
    exact h.1
  · rw [hs', Option.getD_some]
    exact h.2.2 hk

/-- Witness for C2 on two batches of unequal sizes 2 and 1. -/
theorem ggn_total_running_mean_witness :
    (∀ b s₁, stepPass ([] : List ℕ) 0 (initPass 1) b = some s₁ →
        s₁.total = some (mdiv (msum b) (b.length : ℚ)))
    ∧ ((List.foldlM (stepPass ([] : List ℕ) 0) (initPass 1)
          [[wMatA, wMatA], [wMatB]]).getD (initPass 1)).counter
        = [[wMatA, wMatA], [wMatB]].flatten.length
    ∧ ((List.foldlM (stepPass ([] : List ℕ) 0) (initPass 1)
          [[wMatA, wMatA], [wMatB]]).getD (initPass 1)).total
        = some (mdiv (msum [[wMatA, wMatA], [wMatB]].flatten)
            ([[wMatA, wMatA], [wMatB]].flatten.length : ℚ)) :=
  ggn_total_running_mean [] 0 [[wMatA, wMatA], [wMatB]]
    (by intro b hb
        rcases List.mem_cons.mp hb with rfl | hb
        · exact List.cons_ne_nil _ _
        rcases List.mem_cons.mp hb with rfl | hb
        · exact List.cons_ne_nil _ _
        · cases hb)
    (List.cons_ne_nil _ _)
    (by rfl)

/-- Claim C3: with a fixed GGN-batch size `N`, after `m` batches position `i`
of `GGN_samples` is the arithmetic mean over the `m` batches of the per-item
GGN at batch-relative index `i`; the first batch initializes it to a copy of
the batch's raw per-item tensor. -/
theorem ggn_samples_running_mean {D : ℕ} (bs : List ℕ) (ns N : ℕ)
    (batches : List (List (Mat D)))
    (hsz : ∀ b ∈ batches, b.length = N) (hk : batches ≠ []) :
    (∀ b s₁, stepPass bs ns (initPass D) b = some s₁ → s₁.samples = some b)
    ∧ ∃ s', List.foldlM (stepPass bs ns) (initPass D) batches = some s'
        ∧ ∃ L, s'.samples = some L ∧ L.length = N ∧
            ∀ i, i < N → L.getD i 0
              = mdiv (msum (batches.map fun b => b.getD i 0)) (batches.length : ℚ) := by
  constructor
  · intro b s₁ hstep
    rcases stepPass_eq_some hstep with ⟨samples', hupd, rfl⟩
    simp only [samplesUpdate, initPass] at hupd
    obtain rfl : b = samples' := Option.some.inj hupd
    rfl
  · rcases foldPass_ok bs ns N batches (initPass D) hsz (Or.inl rfl) with ⟨s', hrun, _⟩
    have h := foldPass_samples bs ns N batches [] (initPass D) s'
      (by intro b hb; cases hb) hsz rfl (fun _ => rfl)
      (by intro h; exact absurd rfl h) hrun
    simp only [List.nil_append] at h
    exact ⟨s', hrun, h.2 hk⟩

/-- Witness for C3 on two singleton batches. -/
theorem ggn_samples_running_mean_witness :
    (∀ b s₁, stepPass ([] : List ℕ) 0 (initPass 1) b = some s₁ → s₁.samples = some b)
    ∧ ∃ s', List.foldlM (stepPass ([] : List ℕ) 0) (initPass 1)
          [[wMatA], [wMatB]] = some s'
        ∧ ∃ L, s'.samples = some L ∧ L.length = 1 ∧
            ∀ i, i < 1 → L.getD i 0
              = mdiv (msum ([[wMatA], [wMatB]].map fun b => b.getD i 0))
                  (([[wMatA], [wMatB]].length : ℕ) : ℚ) :=
  ggn_samples_running_mean [] 0 1 [[wMatA], [wMatB]]
    (by intro b hb
        rcases List.mem_cons.mp hb with rfl | hb
        · rfl
        rcases List.mem_cons.mp hb with rfl | hb
        · rfl
        · cases hb)
    (List.cons_ne_nil _ _)

/-- Claim C5: during one GGN pass, `GGN_samples` is persisted exactly at the
cumulative batch counts in `ggn_batch_sizes` (and at no other count), keyed
by `(n_steps, count)`; after the dataset is consumed, `GGN_total` is
persisted exactly once, keyed by `n_steps` alone, as the last save. -/
theorem ggn_save_schedule {D : ℕ} (bs : List ℕ) (ns N : ℕ)
    (batches : List (List (Mat D)))
    (hsz : ∀ b ∈ batches, b.length = N) :
    ∃ s', runPass bs ns batches = some s'
      ∧ sampleTags s'.events
          = (((List.range batches.length).map (· + 1)).filter (· ∈ bs)).map
              (fun m => (ns, m))
      ∧ totalTags s'.events = [ns]
      ∧ ∃ v, s'.events.getLast? = some (SaveEvent.total ns v) := by
  rcases foldPass_ok bs ns N batches (initPass D) hsz (Or.inl rfl) with ⟨s₀, hrun, _⟩
  have h := foldPass_events bs ns batches 0 (initPass D) s₀ rfl
    (by simp [sampleTags, initPass]) (by simp [totalTags, initPass]) hrun
  refine ⟨{ s₀ with events := s₀.events ++ [SaveEvent.total ns s₀.total] }, ?_, ?_, ?_, ?_⟩
  · rw [runPass, hrun]
    rfl
  · show sampleTags (s₀.events ++ [SaveEvent.total ns s₀.total]) = _
    rw [sampleTags, List.filterMap_append, ← sampleTags, h.1]
    simp [sampleTags]
  · show totalTags (s₀.events ++ [SaveEvent.total ns s₀.total]) = _
    rw [totalTags, List.filterMap_append, ← totalTags, h.2]
    simp [totalTags]
  · exact ⟨s₀.total, List.getLast?_concat _⟩

/-- Witness for C5: checkpoint set `{1, 3}` with 5 GGN batches saves the
samples aggregate exactly at counts 1 and 3, then the total under step 7. -/
theorem ggn_save_schedule_witness :
    ∃ s', runPass [1, 3] 7 [[wMatA], [wMatA], [wMatA], [wMatA], [wMatA]] = some s'
      ∧ sampleTags s'.events = [(7, 1), (7, 3)]
      ∧ totalTags s'.events = [7]
      ∧ ∃ v, s'.events.getLast? = some (SaveEvent.total 7 v) :=
  ggn_save_schedule [1, 3] 7 1 [[wMatA], [wMatA], [wMatA], [wMatA], [wMatA]]
    (by intro b hb
        rcases List.mem_cons.mp hb with rfl | hb
        · rfl
        rcases List.mem_cons.mp hb with rfl | hb
        · rfl
        rcases List.mem_cons.mp hb with rfl | hb
        · rfl
        rcases List.mem_cons.mp hb with rfl | hb
        · rfl
        rcases List.mem_cons.mp hb with rfl | hb
        · rfl
        · cases hb)

/-- Claim C8 (amended): the `GGN_samples` update fails with a fatal shape
error exactly when the new batch size and the aggregate's batch size are not
NumPy-broadcast-compatible, i.e. they differ and neither equals 1; the error
aborts the whole pass with no value. -/
theorem samples_mismatch_error {D : ℕ} (bs : List ℕ) (ns : ℕ) (s : PassState D)
    (batch sm : List (Mat D)) (hsm : s.samples = some sm)
    (hne : sm.length ≠ batch.length) (h1 : sm.length ≠ 1) (h2 : batch.length ≠ 1) :
    stepPass bs ns s batch = none
    ∧ ∀ rest, List.foldlM (stepPass bs ns) s (batch :: rest) = none := by
  have hupd : samplesUpdate s.samples batch (s.batchesDone + 1) = none := by
    rw [hsm]
    simp only [samplesUpdate]
    have hz : broadcastZip (fun (g t : Mat D) => g - t) batch sm = none := by
      unfold broadcastZip
      rw [if_neg (fun h => hne h.symm), if_neg h2, if_neg h1]
    rw [hz]
    rfl
  have hstep : stepPass bs ns s batch = none := by
    simp [stepPass, hupd]
  refine ⟨hstep, fun rest => ?_⟩
  rw [List.foldlM_cons, hstep]
  rfl

/-- Witness for the amended C8: aggregate of batch size 2 against a new
batch of size 3 aborts immediately. -/
theorem samples_mismatch_error_witness :
    stepPass ([] : List ℕ) 0
        { counter := 2, batchesDone := 1, total := none,
          samples := some [wMatA, wMatA], events := [] }
        [wMatB, wMatB, wMatB] = none
    ∧ List.foldlM (stepPass ([] : List ℕ) 0)
        { counter := 2, batchesDone := 1, total := none,
          samples := some [wMatA, wMatA], events := [] }
        [[wMatB, wMatB, wMatB]] = none :=
  have h := samples_mismatch_error [] 0
    { counter := 2, batchesDone := 1, total := none,
      samples := some [wMatA, wMatA], events := [] }
    [wMatB, wMatB, wMatB] [wMatA, wMatA] rfl
    (by decide) (by decide) (by decide)
  ⟨h.1, h.2 []⟩

/-- Counterexample to C8 as stated: a new batch of size 1 against a samples
aggregate of size 2 does NOT fail — NumPy broadcasting silently produces a
value, and the pass continues. -/
theorem samples_broadcast_no_error :
    (List.foldlM (stepPass ([] : List ℕ) 0) (initPass 1)
      [[wMatA, wMatA], [wMatB]]).isSome = true := by
  rfl

/-! ### Lemmas about the epoch driver -/

theorem range_map_add_succ (t0 n : ℕ) :
    (List.range (n + 1)).map (t0 + ·) = t0 :: (List.range n).map (t0 + 1 + ·) := by
  rw [List.range_succ_eq_map]
  simp only [List.map_cons, List.map_map, Nat.add_zero]
  congr 1
  exact List.map_congr_left fun i _ => by simp only [Function.comp_apply]; omega

/-- The GGN passes of the canonical epoch trace happen exactly at the first
`quota` multiples of `freq` among the global steps of the epoch. -/
theorem passSteps_epochSegs {D : ℕ} (bs : List ℕ) (gB : List (List (Mat D)))
    (freq : ℕ) :
    ∀ (n t0 quota : ℕ),
      passSteps (epochSegs bs gB freq t0 quota n)
        = (((List.range n).map (t0 + ·)).filter
            (fun t => decide (t % freq = 0))).take quota := by
  intro n
  induction n with
  | zero =>
      intro t0 quota
      simp [epochSegs, passSteps]
  | succ n ih =>
      intro t0 quota
      by_cases hmod : t0 % freq = 0
      · cases quota with
        | zero =>
            rw [List.take_zero, epochSegs, if_neg (by simp)]
            have h := ih (t0 + 1) 0
            rw [List.take_zero] at h
            simpa [passSteps] using h
        | succ q =>
            rw [epochSegs, if_pos ⟨Nat.succ_pos q, hmod⟩]
            have h := ih (t0 + 1) q
            rw [range_map_add_succ, List.filter_cons]
            simp only [passSteps, List.filterMap_cons] at h ⊢
            simp [hmod, List.take_succ_cons, h]
      · rw [epochSegs, if_neg (by simp [hmod])]
        have h := ih (t0 + 1) quota
        rw [range_map_add_succ, List.filter_cons]
        simp only [passSteps, List.filterMap_cons] at h ⊢
        simp [hmod, h]

/-- With a fixed GGN-dataloader batch size, every GGN pass completes. -/
theorem runPass_isSome {D : ℕ} (bs : List ℕ) (N : ℕ) (gB : List (List (Mat D)))
    (hsz : ∀ b ∈ gB, b.length = N) (t : ℕ) : (runPass bs t gB).isSome = true := by
  rcases foldPass_ok bs t N gB (initPass D) hsz (Or.inl rfl) with ⟨s', hrun, _⟩
  simp [runPass, hrun]

/-- The training loop produces exactly the canonical epoch trace, and its
running statistics accumulate per batch. -/
theorem epoch_loop {D : ℕ} (gB : List (List (Mat D))) (bs : List ℕ)
    (freq iters : ℕ) (hfreq : freq ≠ 0)
    (hpass : ∀ t, (runPass bs t gB).isSome = true) :
    ∀ (batches : List (List ℚ × ℕ)) (s : EpochState D),
      ∃ s', List.foldlM (trainEpochStep gB bs freq iters) s batches = Except.ok s'
        ∧ s'.n_steps = s.n_steps + batches.length
        ∧ s'.events = s.events
            ++ epochSegs bs gB freq s.n_steps (iters - s.ggnIter) batches.length
        ∧ s'.ggnIter = s.ggnIter
            + (passSteps (epochSegs bs gB freq s.n_steps (iters - s.ggnIter)
                batches.length)).length
        ∧ s'.lossEpoch = s.lossEpoch ++ batches.map (·.1)
        ∧ s'.nCorrectEpoch = s.nCorrectEpoch + (batches.map (·.2)).sum := by
  intro batches
  induction batches with
  | nil =>
      intro s
      exact ⟨s, by rw [List.foldlM_nil]; rfl, by simp, by simp [epochSegs],
        by simp [epochSegs, passSteps], by simp, by simp⟩
  | cons b rest ih =>
      intro s
      by_cases hlt : s.ggnIter < iters
      · by_cases hmod : s.n_steps % freq = 0
        · rcases Option.isSome_iff_exists.mp (hpass s.n_steps) with ⟨ps, hps⟩
          set s₁ : EpochState D :=
            { n_steps := s.n_steps + 1
              ggnIter := s.ggnIter + 1
              lossEpoch := s.lossEpoch ++ [b.1]
              nCorrectEpoch := s.nCorrectEpoch + b.2
              events := (s.events ++ [EpochEvent.ggnPass s.n_steps ps.events])
                ++ [EpochEvent.trainStep s.n_steps] } with hs₁
          have hstep : trainEpochStep gB bs freq iters s b = Except.ok s₁ := by
            simp [trainEpochStep, hlt, hfreq, hmod, hps, hs₁]
            rfl
          have hquota : 0 < iters - s.ggnIter := by omega
          have hseg : epochSegs bs gB freq s.n_steps (iters - s.ggnIter)
              (rest.length + 1)
              = EpochEvent.ggnPass s.n_steps (passEvs bs gB s.n_steps)
                :: EpochEvent.trainStep s.n_steps
                :: epochSegs bs gB freq (s.n_steps + 1) (iters - s.ggnIter - 1)
                    rest.length := by
            rw [epochSegs, if_pos ⟨hquota, hmod⟩]
          have hpe : passEvs bs gB s.n_steps = ps.events := by
            simp [passEvs, hps]
          have hsub : iters - s₁.ggnIter = iters - s.ggnIter - 1 := by
            simp only [hs₁]
            omega
          rcases ih s₁ with ⟨s', hrun, h1, h2, h3, h4, h5⟩
          refine ⟨s', ?_, ?_, ?_, ?_, ?_, ?_⟩
          · rw [List.foldlM_cons, hstep]
            simpa using hrun
          · rw [h1]
            simp [hs₁]
            omega
          · rw [h2, hsub]
            simp only [hs₁, List.length_cons, hseg, hpe]
            simp [List.append_assoc]
          · rw [h3, hsub]
            simp only [hs₁, List.length_cons, hseg, hpe]
            simp only [passSteps, List.filterMap_cons]
            simp [passSteps]
            omega
          · rw [h4]
            simp [hs₁]
          · rw [h5]
            simp only [hs₁, List.map_cons, List.sum_cons]
            omega
        · set s₁ : EpochState D :=
            { n_steps := s.n_steps + 1
              ggnIter := s.ggnIter
              lossEpoch := s.lossEpoch ++ [b.1]
              nCorrectEpoch := s.nCorrectEpoch + b.2
              events := s.events ++ [EpochEvent.trainStep s.n_steps] } with hs₁
          have hstep : trainEpochStep gB bs freq iters s b = Except.ok s₁ := by
            simp [trainEpochStep, hlt, hfreq, hmod, hs₁]
            rfl
          have hseg : epochSegs bs gB freq s.n_steps (iters - s.ggnIter)
              (rest.length + 1)
              = EpochEvent.trainStep s.n_steps
                :: epochSegs bs gB freq (s.n_steps + 1) (iters - s.ggnIter)
                    rest.length := by
            rw [epochSegs, if_neg (by simp [hmod])]
          rcases ih s₁ with ⟨s', hrun, h1, h2, h3, h4, h5⟩
          refine ⟨s', ?_, ?_, ?_, ?_, ?_, ?_⟩
          · rw [List.foldlM_cons, hstep]
            simpa using hrun
          · rw [h1]
            simp [hs₁]
            omega
          · rw [h2]
            simp only [hs₁, List.length_cons, hseg]
            simp [List.append_assoc]
          · rw [h3]
            simp only [hs₁, List.length_cons, hseg]
            simp only [passSteps, List.filterMap_cons]
          · rw [h4]
            simp [hs₁]
          · rw [h5]
            simp only [hs₁, List.map_cons, List.sum_cons]
            omega
      · set s₁ : EpochState D :=
            { n_steps := s.n_steps + 1
              ggnIter := s.ggnIter
              lossEpoch := s.lossEpoch ++ [b.1]
              nCorrectEpoch := s.nCorrectEpoch + b.2
              events := s.events ++ [EpochEvent.trainStep s.n_steps] } with hs₁
        have hstep : trainEpochStep gB bs freq iters s b = Except.ok s₁ := by
          simp [trainEpochStep, hlt, hs₁]
          rfl
        have hquota : iters - s.ggnIter = 0 := by omega
        have hseg : epochSegs bs gB freq s.n_steps (iters - s.ggnIter)
            (rest.length + 1)
            = EpochEvent.trainStep s.n_steps
              :: epochSegs bs gB freq (s.n_steps + 1) (iters - s.ggnIter)
                  rest.length := by
          rw [epochSegs, if_neg (by simp [hquota])]
        rcases ih s₁ with ⟨s', hrun, h1, h2, h3, h4, h5⟩
        refine ⟨s', ?_, ?_, ?_, ?_, ?_, ?_⟩
        · rw [List.foldlM_cons, hstep]
          simpa using hrun
        · rw [h1]
          simp [hs₁]
          omega
        · rw [h2]
          simp only [hs₁, List.length_cons, hseg]
          simp [List.append_assoc]
        · rw [h3]
          simp only [hs₁, List.length_cons, hseg]
          simp only [passSteps, List.filterMap_cons]
        · rw [h4]
          simp [hs₁]
        · rw [h5]
          simp only [hs₁, List.map_cons, List.sum_cons]
          omega

/-- Claim C4: a GGN pass starts iff the count of completed passes is below
`n_ggn_iterations` and `n_steps` is a multiple of `ggn_freq`; the trace is
the canonical one, in which each triggered pass runs to completion (its
whole `save_results` trace) immediately before the triggering batch's train
step; the pass steps are the first `iters` multiples of `freq` among the
epoch's global steps; and the function returns
`n_ggn_iterations - GGN_iter_counter`. -/
theorem ggn_trigger_schedule {D : ℕ} (gB : List (List (Mat D))) (bs : List ℕ)
    (freq iters steps0 dsize N : ℕ) (trainBatches : List (List ℚ × ℕ))
    (hfreq : 0 < freq) (hsz : ∀ b ∈ gB, b.length = N) :
    ∃ s', train_epoch gB bs freq iters steps0 dsize trainBatches
        = Except.ok (s', epochLoss s'.lossEpoch,
            (s'.nCorrectEpoch : ℚ) / (dsize : ℚ), s'.n_steps, iters - s'.ggnIter)
      ∧ s'.events = epochSegs bs gB freq steps0 iters trainBatches.length
      ∧ passSteps s'.events
          = (((List.range trainBatches.length).map (steps0 + ·)).filter
              (fun t => decide (t % freq = 0))).take iters
      ∧ iters - s'.ggnIter = iters - (passSteps s'.events).length := by
  rcases epoch_loop gB bs freq iters (by omega) (fun t => runPass_isSome bs N gB hsz t)
    trainBatches
    { n_steps := steps0, ggnIter := 0, lossEpoch := [], nCorrectEpoch := 0, events := [] }
    with ⟨s', hrun, h1, h2, h3, h4, h5⟩
  simp only [List.nil_append, Nat.sub_zero, Nat.zero_add] at h2 h3
  refine ⟨s', ?_, h2, ?_, ?_⟩
  · simp [train_epoch, hrun]
  · rw [h2]
    exact passSteps_epochSegs bs gB freq trainBatches.length steps0 iters
  · rw [h3, h2]

/-- Witness for C4: `ggn_freq = 3`, `n_ggn_iterations = 2`, global step
starting at 0, 7 training batches: passes trigger exactly at steps 0 and 3
(not at 6), and the remaining-iterations value is `2 - 2`. -/
theorem ggn_trigger_schedule_witness :
    ∃ s', train_epoch [[wMatA]] [1] 3 2 0 10
        [([1], 1), ([1], 1), ([1], 1), ([1], 1), ([1], 1), ([1], 1), ([1], 1)]
        = Except.ok (s', epochLoss s'.lossEpoch,
            (s'.nCorrectEpoch : ℚ) / (10 : ℚ), s'.n_steps, 2 - s'.ggnIter)
      ∧ s'.events = epochSegs [1] [[wMatA]] 3 0 2 7
      ∧ passSteps s'.events = [0, 3]
      ∧ 2 - s'.ggnIter = 2 - (passSteps s'.events).length :=
  ggn_trigger_schedule [[wMatA]] [1] 3 2 0 10 1
    [([1], 1), ([1], 1), ([1], 1), ([1], 1), ([1], 1), ([1], 1), ([1], 1)]
    (by omega)
    (by intro b hb
        rcases List.mem_cons.mp hb with rfl | hb
        · rfl
        · cases hb)

/-- Any error of the training loop with a nonzero `ggn_freq` is a broadcast
error, never the modulo-by-zero error. -/
theorem foldl_no_zeroDiv {D : ℕ} (gB : List (List (Mat D))) (bs : List ℕ)
    (freq iters : ℕ) (hfreq : freq ≠ 0) :
    ∀ (batches : List (List ℚ × ℕ)) (s : EpochState D),
      List.foldlM (trainEpochStep gB bs freq iters) s batches
        ≠ Except.error PyError.zeroDivision := by
  have hstep : ∀ (s : EpochState D) (b : List ℚ × ℕ),
      trainEpochStep gB bs freq iters s b ≠ Except.error PyError.zeroDivision := by
    intro s b h
    by_cases hlt : s.ggnIter < iters
    · by_cases hmod : s.n_steps % freq = 0
      · cases hps : runPass bs s.n_steps gB with
        | none =>
            rw [show trainEpochStep gB bs freq iters s b
                = Except.error PyError.broadcastMismatch from by
              simp [trainEpochStep, hlt, hfreq, hmod, hps]
              rfl] at h
            simp at h
        | some ps =>
            rw [show trainEpochStep gB bs freq iters s b
                = Except.ok { s with
                    n_steps := s.n_steps + 1
                    ggnIter := s.ggnIter + 1
                    lossEpoch := s.lossEpoch ++ [b.1]
                    nCorrectEpoch := s.nCorrectEpoch + b.2
                    events := (s.events ++ [EpochEvent.ggnPass s.n_steps ps.events])
                      ++ [EpochEvent.trainStep s.n_steps] } from by
              simp [trainEpochStep, hlt, hfreq, hmod, hps]
              rfl] at h
            simp at h
      · rw [show trainEpochStep gB bs freq iters s b
            = Except.ok { s with
                n_steps := s.n_steps + 1
                lossEpoch := s.lossEpoch ++ [b.1]
                nCorrectEpoch := s.nCorrectEpoch + b.2
                events := s.events ++ [EpochEvent.trainStep s.n_steps] } from by
          simp [trainEpochStep, hlt, hfreq, hmod]
          rfl] at h
        simp at h
    · rw [show trainEpochStep gB bs freq iters s b
          = Except.ok { s with
              n_steps := s.n_steps + 1
              lossEpoch := s.lossEpoch ++ [b.1]
              nCorrectEpoch := s.nCorrectEpoch + b.2
              events := s.events ++ [EpochEvent.trainStep s.n_steps] } from by
        simp [trainEpochStep, hlt]
        rfl] at h
      simp at h
  intro batches
  induction batches with
  | nil =>
      intro s h
      rw [List.foldlM_nil] at h
      cases h
  | cons b rest ih =>
      intro s h
      rw [List.foldlM_cons] at h
      cases hb : trainEpochStep gB bs freq iters s b with
      | error e =>
          rw [hb] at h
          have h' : (Except.error e : Except PyError (EpochState D))
              = Except.error PyError.zeroDivision := h
          exact hstep s b ((Except.error.inj h') ▸ hb)
      | ok s₁ =>
          rw [hb] at h
          exact ih s₁ (by simpa using h)

/-- Claim C9: `train_epoch` requires a nonzero `ggn_freq`: with
`ggn_freq = 0` and `n_ggn_iterations > 0`, the trigger check
`n_steps % ggn_freq` raises a modulo-by-zero error on the first training
batch; with any `ggn_freq ≥ 1` that error is unreachable. -/
theorem ggn_freq_zero_division {D : ℕ} (gB : List (List (Mat D))) (bs : List ℕ)
    (iters steps0 dsize : ℕ) (hiters : 0 < iters)
    (b : List ℚ × ℕ) (rest : List (List ℚ × ℕ)) :
    train_epoch gB bs 0 iters steps0 dsize (b :: rest)
        = Except.error PyError.zeroDivision
    ∧ ∀ freq, 0 < freq → ∀ (batches : List (List ℚ × ℕ)),
        train_epoch (D := D) gB bs freq iters steps0 dsize batches
          ≠ Except.error PyError.zeroDivision := by
  constructor
  · have h0 : trainEpochStep gB bs 0 iters
        { n_steps := steps0, ggnIter := 0, lossEpoch := [], nCorrectEpoch := 0,
          events := [] } b = Except.error PyError.zeroDivision := by
      simp [trainEpochStep, hiters]
      rfl
    simp only [train_epoch, List.foldlM_cons, h0]
    rfl
  · intro freq hfreq batches h
    simp only [train_epoch] at h
    cases hb : List.foldlM (trainEpochStep gB bs freq iters)
        { n_steps := steps0, ggnIter := 0, lossEpoch := [], nCorrectEpoch := 0,
          events := [] } batches with
    | error e =>
        rw [hb] at h
        simp at h
        exact foldl_no_zeroDiv gB bs freq iters (by omega) batches _ (h ▸ hb)
    | ok s =>
        rw [hb] at h
        simp at h

/-- Witness for C9 at `ggn_freq = 0`, one GGN iteration, one training
batch. -/
theorem ggn_freq_zero_division_witness :
    train_epoch ([] : List (List (Mat 1))) [] 0 1 0 1 [([1], 1)]
        = Except.error PyError.zeroDivision
    ∧ ∀ freq, 0 < freq → ∀ (batches : List (List ℚ × ℕ)),
        train_epoch (D := 1) [] [] freq 1 0 1 batches
          ≠ Except.error PyError.zeroDivision :=
  ggn_freq_zero_division [] [] 1 0 1 (by omega) ([1], 1) []

/-- Closed form of the `test_epoch` accumulation loop. -/
theorem testFold_closed (l : List (List ℚ × ℕ)) :
    ∀ acc : List (List ℚ) × ℕ,
      l.foldl (fun acc batch => (acc.1 ++ [batch.1], acc.2 + batch.2)) acc
        = (acc.1 ++ l.map (·.1), acc.2 + (l.map (·.2)).sum) := by
  induction l with
  | nil => intro acc; simp
  | cons b rest ih =>
      intro acc
      rw [List.foldl_cons, ih]
      simp [Nat.add_assoc]

/-- Claim C6: the epoch loss is the mean of the concatenated per-item loss
vectors, i.e. the item-count-weighted mean over batches (not a mean of
per-batch means), in both `train_epoch` and `test_epoch`; the accuracy is
the total correct count divided by the dataset size. -/
theorem epoch_loss_accuracy {D : ℕ} (gB : List (List (Mat D))) (bs : List ℕ)
    (freq iters steps0 dsize N : ℕ)
    (trainBatches testBatches : List (List ℚ × ℕ))
    (hfreq : 0 < freq) (hsz : ∀ b ∈ gB, b.length = N) :
    (∀ losses : List (List ℚ), epochLoss losses
        = (losses.map List.sum).sum / ((losses.map List.length).sum : ℚ))
    ∧ (∃ s', train_epoch gB bs freq iters steps0 dsize trainBatches
          = Except.ok (s', epochLoss (trainBatches.map (·.1)),
              ((trainBatches.map (·.2)).sum : ℚ) / (dsize : ℚ), s'.n_steps,
              iters - s'.ggnIter))
    ∧ test_epoch dsize testBatches
        = (epochLoss (testBatches.map (·.1)),
           ((testBatches.map (·.2)).sum : ℚ) / (dsize : ℚ)) := by
  refine ⟨?_, ?_, ?_⟩
  · intro losses
    rw [epochLoss, List.sum_flatten, List.length_flatten]
  · rcases epoch_loop gB bs freq iters (by omega)
      (fun t => runPass_isSome bs N gB hsz t) trainBatches
      { n_steps := steps0, ggnIter := 0, lossEpoch := [], nCorrectEpoch := 0,
        events := [] } with ⟨s', hrun, h1, h2, h3, h4, h5⟩
    simp only [List.nil_append, Nat.zero_add] at h4 h5
    exact ⟨s', by simp [train_epoch, hrun, h4, h5, Function.comp_def]⟩
  · rw [test_epoch, testFold_closed]
    simp [Function.comp_def]

/-- Witness for C6 with unequal batch sizes (2 items, then 1 item). -/
theorem epoch_loss_accuracy_witness :
    (∀ losses : List (List ℚ), epochLoss losses
        = (losses.map List.sum).sum / ((losses.map List.length).sum : ℚ))
    ∧ (∃ s', train_epoch [[wMatA]] [] 1 0 0 3
          [([1, 2], 1), ([3], 0)]
          = Except.ok (s', epochLoss ([([1, 2], (1 : ℕ)), ([3], 0)].map (·.1)),
              ((([([1, 2], (1 : ℕ)), ([3], 0)].map (·.2)).sum : ℚ) / ((3 : ℕ) : ℚ)),
              s'.n_steps, 0 - s'.ggnIter))
    ∧ test_epoch 3 [([1, 2], 1), ([3], 0)]
        = (epochLoss ([([1, 2], (1 : ℕ)), ([3], 0)].map (·.1)),
           ((([([1, 2], (1 : ℕ)), ([3], 0)].map (·.2)).sum : ℚ) / ((3 : ℕ) : ℚ))) :=
  epoch_loss_accuracy [[wMatA]] [] 1 0 0 3 1 [([1, 2], 1), ([3], 0)]
    [([1, 2], 1), ([3], 0)] (by omega)
    (by intro b hb
        rcases List.mem_cons.mp hb with rfl | hb
        · rfl
        · cases hb)

/-- The scanned maximum of `argmaxF`'s fold dominates the seed and every
scanned index. -/
theorem argmax_fold_ge {c : ℕ} (z : Fin (c + 1) → ℚ) :
    ∀ (l : List (Fin (c + 1))) (b : Fin (c + 1)),
      z b ≤ z (l.foldl (fun best i => if z best < z i then i else best) b)
      ∧ ∀ j ∈ l, z j ≤ z (l.foldl (fun best i => if z best < z i then i else best) b) := by
  intro l
  induction l with
  | nil =>
      intro b
      exact ⟨le_refl _, by simp⟩
  | cons i l ih =>
      intro b
      rw [List.foldl_cons]
      rcases ih (if z b < z i then i else b) with ⟨h1, h2⟩
      have hb : z b ≤ z (if z b < z i then i else b) := by
        by_cases h : z b < z i
        · rw [if_pos h]; exact le_of_lt h
        · rw [if_neg h]
      have hi : z i ≤ z (if z b < z i then i else b) := by
        by_cases h : z b < z i
        · rw [if_pos h]
        · rw [if_neg h]; exact le_of_not_lt h
      refine ⟨le_trans hb h1, ?_⟩
      intro j hj
      rcases List.mem_cons.mp hj with rfl | hj
      · exact le_trans hi h1
      · exact h2 j hj

/-- Claim C10: `n_correct` is an exact natural number equal to the number of
items whose argmax over the class dimension equals the label; it is at most
the batch size; `argmaxF` attains the maximum logit; and the epoch accuracy
numerator accumulated by the epoch loop is the exact sum of the per-batch
counts. -/
theorem n_correct_exact {N c : ℕ} (logits : Fin N → Fin (c + 1) → ℚ)
    (y : Fin N → ℕ) (testBatches : List (List ℚ × ℕ)) :
    n_correct logits y
        = (Finset.univ.filter fun i => (argmaxF (logits i)).val = y i).card
    ∧ n_correct logits y ≤ N
    ∧ (∀ (z : Fin (c + 1) → ℚ) (j : Fin (c + 1)), z j ≤ z (argmaxF z))
    ∧ (testBatches.foldl
        (fun (acc : List (List ℚ) × ℕ) batch => (acc.1 ++ [batch.1], acc.2 + batch.2))
        ([], 0)).2 = (testBatches.map (·.2)).sum := by
  refine ⟨?_, ?_, ?_, ?_⟩
  · rw [n_correct, Finset.card_filter]
  · rw [n_correct]
    calc (∑ i, if (argmaxF (logits i)).val = y i then 1 else 0)
        ≤ ∑ _i : Fin N, 1 :=
          Finset.sum_le_sum fun i _ => by split <;> omega
      _ = N := by simp
  · intro z j
    exact (argmax_fold_ge z (List.finRange (c + 1)) 0).2 j (List.mem_finRange j)
  · rw [testFold_closed]
    simp

end TrainUtils
